import Mathlib

/-
Verification of the schema-driven code generator in gen/generator.go.

Strings are modelled as lists of characters (`Str`); the generator only
manipulates ASCII marker tokens and schema names, so Lean's ASCII
`Char.isUpper` / `Char.toLower` coincide with Go's `unicode.IsUpper` /
`strings.ToLower` on the inputs of interest.  YAML parsing, the template
minilanguage and file I/O are external to the core and are modelled
abstractly (parse outcomes as `Except`, rendered text as an opaque input).
-/

abbrev Str := List Char

def str (s : String) : Str := s.toList

/-- Character class of Go's regexp `\s` (RE2): tab, newline, form feed,
carriage return, space. -/
def goSpace (c : Char) : Bool :=
  c = '\t' || c = '\n' || c = '\x0c' || c = '\r' || c = ' '

/-- Model of Go `strings.IndexFunc`: index of the first character
satisfying `f`, or `none` (Go returns -1). -/
def indexFunc (f : Char → Bool) : Str → Option Nat
  | [] => none
  | c :: rest => if f c then some 0 else (indexFunc f rest).map (· + 1)

/-! ### NameTransformer -/

/-- The word-splitting loop of `augmentAttribute` (generator.go:252-259):
`l := strings.IndexFunc(s[1:], unicode.IsUpper) + 1; if l <= 0 { l = len(s) }`;
the next word is `strings.ToLower(s[:l])` and the loop continues on `s[l:]`. -/
def deriveWords : Str → List Str
  | [] => []
  | c :: rest =>
    match indexFunc Char.isUpper rest with
    | some k =>
        ((c :: rest).take (k + 1)).map Char.toLower :: deriveWords ((c :: rest).drop (k + 1))
    | none => [(c :: rest).map Char.toLower]
termination_by s => s.length
decreasing_by
  simp [List.length_drop]
  omega

/-- `strings.Join(words, "_")` applied to the derived words
(generator.go:260). -/
def deriveTfName (s : Str) : Str := List.intercalate ['_'] (deriveWords s)

/-- Modelled from the spec (§4.1 `DeriveBoundaryWords`), for comparison with
the source-derived `deriveTfName`: "find the first uppercase letter occurring
at position ≥ 1 of `s`".  `firstUpperFrom i s` scans `s`, the head of `s`
sitting at position `i`. -/
def firstUpperFrom : Nat → Str → Option Nat
  | _, [] => none
  | i, c :: rest => if 1 ≤ i ∧ c.isUpper = true then some i else firstUpperFrom (i + 1) rest

theorem firstUpperFrom_pos : ∀ (l : Str) (i p : Nat),
    firstUpperFrom i l = some p → i ≤ p ∧ 1 ≤ p := by
  intro l
  induction l with
  | nil => intro i p h; simp [firstUpperFrom] at h
  | cons c rest ih =>
    intro i p h
    simp only [firstUpperFrom] at h
    split at h
    · rename_i hc
      cases h
      exact ⟨Nat.le_refl _, hc.1⟩
    · have := ih (i + 1) p h
      omega

/-- Modelled from the spec (§4.1): "while `s` is non-empty, find the first
uppercase letter occurring at position ≥ 1 of `s`; if found at position `p`
the next word is the first `p` characters of `s`, otherwise the next word is
all of `s`; lowercase the word, append, continue on the unconsumed
remainder". -/
def specWords : Str → List Str
  | [] => []
  | c :: rest =>
    match h : firstUpperFrom 0 (c :: rest) with
    | some p => ((c :: rest).take p).map Char.toLower :: specWords ((c :: rest).drop p)
    | none => [(c :: rest).map Char.toLower]
termination_by s => s.length
decreasing_by
  have := firstUpperFrom_pos (c :: rest) 0 p h
  simp [List.length_drop]
  omega

/-- Modelled from the spec (§4.1): the derived boundary words joined
with `_`. -/
def DeriveBoundaryWords (s : Str) : Str := List.intercalate ['_'] (specWords s)

/-- Model of Go `strings.Fields`: maximal runs of non-whitespace
characters. -/
def fields : Str → List Str
  | [] => []
  | c :: rest =>
    if c.isWhitespace then fields rest
    else (c :: rest.takeWhile (fun x => !x.isWhitespace))
      :: fields (rest.dropWhile (fun x => !x.isWhitespace))
termination_by s => s.length
decreasing_by
  · simp
  · have h2 : (rest.dropWhile (fun x => !x.isWhitespace)).length ≤ rest.length :=
      (List.dropWhile_suffix _).sublist.length_le
    simp
    omega

/-- `SnakeCase` (generator.go:175-185): replace `-` by space, split on
whitespace, lowercase every token, join with `_`. -/
def SnakeCase (s : Str) : Str :=
  List.intercalate ['_']
    ((fields (s.map (fun c => if c = '-' then ' ' else c))).map (·.map Char.toLower))

/-! ### Data model (gen/definitions schemas) -/

/-- `YamlConfigAttribute` (generator.go:114-146), restricted to the fields
the generator core reads or writes (`ModelName`, `TfName`, `Type`, `Id`,
`ResourceId`, `Reference`, `Attributes`); the remaining YAML fields are
carried through every operation unchanged. -/
inductive YamlConfigAttribute : Type where
  | mk : (modelName : Str) → (tfName : Str) → (type : Str) → (id : Bool) →
         (resourceId : Bool) → (reference : Bool) →
         (attributes : List YamlConfigAttribute) → YamlConfigAttribute

def YamlConfigAttribute.modelName : YamlConfigAttribute → Str
  | .mk m _ _ _ _ _ _ => m

def YamlConfigAttribute.tfName : YamlConfigAttribute → Str
  | .mk _ tf _ _ _ _ _ => tf

def YamlConfigAttribute.type : YamlConfigAttribute → Str
  | .mk _ _ ty _ _ _ _ => ty

def YamlConfigAttribute.id : YamlConfigAttribute → Bool
  | .mk _ _ _ i _ _ _ => i

def YamlConfigAttribute.resourceId : YamlConfigAttribute → Bool
  | .mk _ _ _ _ rid _ _ => rid

def YamlConfigAttribute.reference : YamlConfigAttribute → Bool
  | .mk _ _ _ _ _ ref _ => ref

def YamlConfigAttribute.attributes : YamlConfigAttribute → List YamlConfigAttribute
  | .mk _ _ _ _ _ _ attrs => attrs

/-- `YamlConfig` (generator.go:96-112), restricted to the fields the
generator core reads or writes. -/
structure YamlConfig : Type where
  name : Str
  dsDescription : Str
  resDescription : Str
  attributes : List YamlConfigAttribute

/-- `HasId` (generator.go:202-209): shallow scan of the top-level
attribute sequence. -/
def HasId : List YamlConfigAttribute → Bool
  | [] => false
  | a :: rest => if a.id then true else HasId rest

/-- `HasReference` (generator.go:212-219): shallow scan of the top-level
attribute sequence. -/
def HasReference : List YamlConfigAttribute → Bool
  | [] => false
  | a :: rest => if a.reference then true else HasReference rest

/-- `HasResourceId` (generator.go:222-234): scans the sequence and recurses
into `attr.Attributes` whenever it is non-empty. -/
def HasResourceId : List YamlConfigAttribute → Bool
  | [] => false
  | .mk _ _ _ _ rid _ attrs :: rest =>
    if rid then true
    else if attrs.length > 0 && HasResourceId attrs then true
    else HasResourceId rest

/-- Membership of an attribute anywhere in the nested attribute tree rooted
at a sequence: either at the top level, or inside the `attributes` of some
member. -/
inductive InAttrTree : YamlConfigAttribute → List YamlConfigAttribute → Prop where
  | here : ∀ {a : YamlConfigAttribute} {l : List YamlConfigAttribute},
      a ∈ l → InAttrTree a l
  | nested : ∀ {a b : YamlConfigAttribute} {l : List YamlConfigAttribute},
      b ∈ l → InAttrTree a b.attributes → InAttrTree a l

/-! ### SchemaAugmenter -/

mutual

/-- `augmentAttribute` (generator.go:249-267): derive `TfName` from
`ModelName` when absent; recurse into nested attributes for `List`/`Set`
types. -/
def augmentAttribute : YamlConfigAttribute → YamlConfigAttribute
  | .mk m tf ty i rid ref attrs =>
    .mk m (if tf = [] then deriveTfName m else tf) ty i rid ref
      (if ty = str "List" ∨ ty = str "Set" then augmentAttrList attrs else attrs)

/-- The `for a := range attr.Attributes` loop of `augmentAttribute`
(generator.go:263-265), applied pointwise. -/
def augmentAttrList : List YamlConfigAttribute → List YamlConfigAttribute
  | [] => []
  | a :: rest => augmentAttribute a :: augmentAttrList rest

end

/-- The `strings.HasPrefix(name, "a") || ... || strings.HasPrefix(name, "u")`
test of `augmentConfig` (generator.go:278), applied to the lowercased
entity name. -/
def vowelStart (lname : Str) : Bool :=
  (['a'] : Str).isPrefixOf lname || (['e'] : Str).isPrefixOf lname ||
  (['i'] : Str).isPrefixOf lname || (['o'] : Str).isPrefixOf lname ||
  (['u'] : Str).isPrefixOf lname

/-- `augmentConfig` (generator.go:269-284): augment every attribute,
default the data-source description, default the resource description with
`an`/`a` chosen by the leading letter of the lowercased name. -/
def augmentConfig (c : YamlConfig) : YamlConfig :=
  { name := c.name
    dsDescription :=
      if c.dsDescription = [] then
        str "This data source can read the " ++ c.name ++ str "."
      else c.dsDescription
    resDescription :=
      if c.resDescription = [] then
        if vowelStart (c.name.map Char.toLower) then
          str "This resource can manage an " ++ c.name ++ str "."
        else
          str "This resource can manage a " ++ c.name ++ str "."
      else c.resDescription
    attributes := augmentAttrList c.attributes }

/-! ### SectionExtractor and MergeEngine

Rendered text and prior files are modelled as lists of lines, exactly as
`bufio.Scanner` delivers them (no terminating newline in a line). -/

def beginMarker : Str := str "//template:begin"

def endMarker : Str := str "//template:end"

/-- Model of `regexp.FindStringSubmatch` for the merge-scan patterns
`\/\/template:begin\s(.*?)$` and `\/\/template:end\s(.*?)$`
(generator.go:347-348): the leftmost occurrence of the marker followed by
one whitespace character matches, and the capture group is the rest of the
line. -/
def markerCapture (marker : Str) : Str → Option Str
  | [] => none
  | c :: rest =>
    if marker.isPrefixOf (c :: rest) then
      match (c :: rest).drop marker.length with
      | w :: tail => if goSpace w then some tail else markerCapture marker rest
      | [] => markerCapture marker rest
    else markerCapture marker rest

/-- Model of `regexp.MatchString` for the anchored patterns
`\/\/template:begin\s<name>$` and `\/\/template:end\s<name>$` of
`getTemplateSection` (generator.go:290-291): some occurrence of the marker
is followed by one whitespace character and then exactly `name` up to the
end of the line.  Section names contain no regexp metacharacters (§4.4), so
the name is matched literally. -/
def anchoredMatch (marker name : Str) : Str → Bool
  | [] => false
  | c :: rest =>
    (marker.isPrefixOf (c :: rest) &&
      (match (c :: rest).drop marker.length with
       | w :: tail => goSpace w && decide (tail = name)
       | [] => false))
    || anchoredMatch marker name rest

/-- The scanner loop of `getTemplateSection` (generator.go:286-309), with
its `foundSection` flag. -/
def getTemplateSectionLines (name : Str) : List Str → Bool → List Str
  | [], _ => []
  | line :: rest, false =>
    if anchoredMatch beginMarker name line then
      line :: getTemplateSectionLines name rest true
    else
      getTemplateSectionLines name rest false
  | line :: rest, true =>
    line :: getTemplateSectionLines name rest (!anchoredMatch endMarker name line)

/-- `getTemplateSection` (generator.go:286-309) on the rendered text `R`. -/
def getTemplateSection (R : List Str) (name : Str) : List Str :=
  getTemplateSectionLines name R false

/-- The merge scan of `renderTemplate` (generator.go:344-367) over the
prior file's lines.  `cur = []` is the `Outside` state
(`currentSectionName == ""`); a non-empty `cur` is `InSection cur`. -/
def mergeLines (R : List Str) : List Str → Str → List Str
  | [], _ => []
  | line :: rest, cur =>
    if cur = [] then
      match markerCapture beginMarker line with
      | some n => if n = [] then line :: mergeLines R rest [] else mergeLines R rest n
      | none => line :: mergeLines R rest []
    else
      match markerCapture endMarker line with
      | some n =>
          if n = cur then getTemplateSection R cur ++ mergeLines R rest []
          else mergeLines R rest cur
      | none => mergeLines R rest cur

/-- One event of the merge scan: a line of the prior file kept verbatim, or
the insertion of the named section extracted from the rendered text. -/
inductive MergeItem : Type where
  | keep : Str → MergeItem
  | insert : Str → MergeItem
deriving DecidableEq

/-- The merge scan of `renderTemplate` (generator.go:344-367) instrumented
to record, instead of the output lines, which lines of the prior file are
kept and where section blocks are inserted. -/
def mergeItems : List Str → Str → List MergeItem
  | [], _ => []
  | line :: rest, cur =>
    if cur = [] then
      match markerCapture beginMarker line with
      | some n => if n = [] then .keep line :: mergeItems rest [] else mergeItems rest n
      | none => .keep line :: mergeItems rest []
    else
      match markerCapture endMarker line with
      | some n =>
          if n = cur then .insert cur :: mergeItems rest []
          else mergeItems rest cur
      | none => mergeItems rest cur

/-- Replay of recorded merge events against the rendered text `R`. -/
def renderItems (R : List Str) : List MergeItem → List Str
  | [] => []
  | .keep l :: rest => l :: renderItems R rest
  | .insert n :: rest => getTemplateSection R n ++ renderItems R rest

/-- The lines of a prior file lying outside all marked sections: the lines
the merge scan keeps verbatim (marker lines and section interiors are part
of the sections). -/
def outsideLines (E : List Str) (cur : Str) : List Str :=
  (mergeItems E cur).filterMap fun it =>
    match it with
    | .keep l => some l
    | .insert _ => none

/-- The state in which the merge scan of `renderTemplate` finishes reading
the prior file: `[]` when every entered section was closed, otherwise the
name of the still-open section. -/
def finalState : List Str → Str → Str
  | [], cur => cur
  | line :: rest, cur =>
    if cur = [] then
      match markerCapture beginMarker line with
      | some n => if n = [] then finalState rest [] else finalState rest n
      | none => finalState rest []
    else
      match markerCapture endMarker line with
      | some n => if n = cur then finalState rest [] else finalState rest cur
      | none => finalState rest cur

/-! ### TemplateEngine input (renderTemplate, reading phase) -/

/-- Concatenation of scanned lines as done by the
`temp = temp + scanner.Text() + "\n"` loop of `renderTemplate`
(generator.go:324-326). -/
def joinNL (lines : List Str) : Str :=
  match lines with
  | [] => []
  | l :: rest => l ++ '\n' :: joinNL rest

/-- The template text handed to `template.Parse` by `renderTemplate`
(generator.go:319-328): for a template path ending in `.go` one initial
`scanner.Scan()` drops the first line; otherwise all lines are used. -/
def templateText (templatePath : Str) (fileLines : List Str) : Str :=
  if (str ".go").isSuffixOf templatePath then joinNL (fileLines.drop 1)
  else joinNL fileLines

/-! ### Orchestrator (main) -/

/-- One entry of the `templates` table (generator.go:47-94): template path,
destination path prefix and suffix. -/
structure GenTemplate : Type where
  path : Str
  pre : Str
  suf : Str

/-- The `templates` table (generator.go:53-94). -/
def genTemplates : List GenTemplate :=
  [ ⟨str "./gen/templates/model.go", str "./internal/provider/model_fmc_", str ".go"⟩,
    ⟨str "./gen/templates/data_source.go", str "./internal/provider/data_source_fmc_", str ".go"⟩,
    ⟨str "./gen/templates/data_source_test.go", str "./internal/provider/data_source_fmc_", str "_test.go"⟩,
    ⟨str "./gen/templates/resource.go", str "./internal/provider/resource_fmc_", str ".go"⟩,
    ⟨str "./gen/templates/resource_test.go", str "./internal/provider/resource_fmc_", str "_test.go"⟩,
    ⟨str "./gen/templates/data-source.tf", str "./examples/data-sources/fmc_", str "/data-source.tf"⟩,
    ⟨str "./gen/templates/resource.tf", str "./examples/resources/fmc_", str "/resource.tf"⟩,
    ⟨str "./gen/templates/import.sh", str "./examples/resources/fmc_", str "/import.sh"⟩ ]

/-- The first loop of `main` (generator.go:384-396): read and
`yaml.Unmarshal` every definition file, stopping at the first failure
(`log.Fatalf` terminates the process before the generation loop).  A
document's parse outcome is modelled as `Except`. -/
def loadConfigs : List (Except Str YamlConfig) → Except Str (List YamlConfig)
  | [] => .ok []
  | .error e :: _ => .error e
  | .ok c :: rest => (loadConfigs rest).map (c :: ·)

/-- The file writes of the second phase of `main` (generator.go:398-416):
per entity and output-kind a file at `prefix + SnakeCase(name) + suffix`,
then the aggregate provider artifact over all entity names, then the
changelog artifact.  The template-engine results are abstracted as the
functions `render` (entity templates), `renderNames` (provider) and
`renderText` (changelog). -/
def mainWrites (render : Str → YamlConfig → Str) (renderNames : List Str → Str)
    (renderText : Str → Str) (cfgs : List YamlConfig) (changelog : Str) :
    List (Str × Str) :=
  (cfgs.map augmentConfig).flatMap
    (fun c => genTemplates.map fun t => (t.pre ++ SnakeCase c.name ++ t.suf, render t.path c))
  ++ [(str "./internal/provider/provider.go", renderNames ((cfgs.map augmentConfig).map (·.name)))]
  ++ [(str "./templates/guides/changelog.md.tmpl", renderText changelog)]

/-- `main` (generator.go:377-417): phase one loads and parses every schema
document; only when all of them parse does phase two produce any file
write. -/
def mainRun (render : Str → YamlConfig → Str) (renderNames : List Str → Str)
    (renderText : Str → Str) (docs : List (Except Str YamlConfig)) (changelog : Str) :
    Except Str (List (Str × Str)) :=
  match loadConfigs docs with
  | .error e => .error e
  | .ok cfgs => .ok (mainWrites render renderNames renderText cfgs changelog)

/-! ### Concrete inputs used by witnesses and counterexamples -/

/-- A prior file whose second line opens section `foo` that is never
closed. -/
def unterminatedPrior : List Str :=
  [str "hello world", str "//template:begin foo", str "inside the section"]

/-- A well-formed prior file: a hand-written line, a complete `foo`
section, a trailing hand-written line. -/
def wellFormedPrior : List Str :=
  [str "// hand edit", str "//template:begin foo", str "old body",
   str "//template:end foo", str "// trailing edit"]

/-- A rendered text containing a fresh `foo` section. -/
def renderedWithFoo : List Str :=
  [str "header", str "//template:begin foo", str "new body",
   str "//template:end foo", str "footer"]

/-- An attribute whose identifier and resource-identifier flags are set only
on an attribute nested inside a list attribute. -/
def nestedIdAttr : YamlConfigAttribute :=
  .mk (str "Items") [] (str "List") false false false
    [.mk (str "Id") [] (str "String") true true false []]

/-- An attribute whose is-a-reference flag is set only on an attribute
nested inside a list attribute. -/
def nestedRefAttr : YamlConfigAttribute :=
  .mk (str "Items") [] (str "List") false false false
    [.mk (str "Ref") [] (str "String") false false true []]

/-- Entity named `Access Policy` with no explicit descriptions. -/
def accessPolicyCfg : YamlConfig :=
  { name := str "Access Policy", dsDescription := [], resDescription := [], attributes := [] }

/-- Entity named `Rule` with no explicit descriptions. -/
def ruleCfg : YamlConfig :=
  { name := str "Rule", dsDescription := [], resDescription := [], attributes := [] }

/-! ### Theorems -/

theorem firstUpperFrom_shift : ∀ (l : Str) (i : Nat),
    firstUpperFrom (i + 1) l = (indexFunc Char.isUpper l).map (· + (i + 1)) := by
  intro l
  induction l with
  | nil => intro i; simp [firstUpperFrom, indexFunc]
  | cons c rest ih =>
    intro i
    simp only [firstUpperFrom, indexFunc]
    by_cases hc : c.isUpper = true
    · simp [hc]
    · simp only [hc]
      rw [if_neg (by simp [hc]), if_neg (by simp [hc])]
      rw [ih (i + 1)]
      cases indexFunc Char.isUpper rest <;> simp <;> omega

theorem firstUpperFrom_zero_cons (c : Char) (rest : Str) :
    firstUpperFrom 0 (c :: rest) = (indexFunc Char.isUpper rest).map (· + 1) := by
  simp only [firstUpperFrom]
  rw [if_neg (by omega)]
  exact firstUpperFrom_shift rest 0

theorem specWords_eq_deriveWords : ∀ s : Str, specWords s = deriveWords s
  | [] => by simp [specWords, deriveWords]
  | c :: rest => by
    have hs := firstUpperFrom_zero_cons c rest
    cases hidx : indexFunc Char.isUpper rest with
    | none =>
      rw [hidx] at hs
      simp only [Option.map_none'] at hs
      simp only [specWords, deriveWords, hidx]
      split
      · rename_i p hp
        rw [hs] at hp
        exact Option.noConfusion hp
      · rfl
    | some k =>
      rw [hidx] at hs
      simp only [Option.map_some'] at hs
      simp only [specWords, deriveWords, hidx]
      split
      · rename_i p hp
        rw [hs] at hp
        injection hp with hp2
        subst hp2
        exact congrArg _ (specWords_eq_deriveWords ((c :: rest).drop (k + 1)))
      · rename_i hp
        rw [hs] at hp
        exact Option.noConfusion hp
termination_by s => s.length
decreasing_by
  simp [List.length_drop]
  omega

theorem deriveTfName_eq_DeriveBoundaryWords (s : Str) :
    deriveTfName s = DeriveBoundaryWords s := by
  unfold deriveTfName DeriveBoundaryWords
  rw [specWords_eq_deriveWords]

/-- C2: for every attribute lacking an external-facing name, augmentation
derives it by the exact word segmentation of the spec (`DeriveBoundaryWords`):
repeatedly cut the model-side name just before the first uppercase letter at
position ≥ 1, lowercase each piece, join with `_`; in particular
`HTTPServer ↦ h_t_t_p_server` and `Id ↦ id`. -/
theorem tfName_derived_by_boundary_segmentation :
    (∀ a : YamlConfigAttribute, a.tfName = [] →
        (augmentAttribute a).tfName = DeriveBoundaryWords a.modelName)
    ∧ deriveTfName (str "HTTPServer") = str "h_t_t_p_server"
    ∧ deriveTfName (str "Id") = str "id" := by
  refine ⟨?_, ?_, ?_⟩
  · intro a h
    cases a with
    | mk m tf ty i rid ref attrs =>
      simp only [YamlConfigAttribute.tfName] at h
      simp only [augmentAttribute, YamlConfigAttribute.tfName, YamlConfigAttribute.modelName,
        h, if_pos]
      exact deriveTfName_eq_DeriveBoundaryWords m
  · simp +decide [deriveTfName, deriveWords, indexFunc, str]
  · simp +decide [deriveTfName, deriveWords, indexFunc, str]

/-- Witness for C2 at the attribute with model name `HTTPServer` and no
explicit external name. -/
theorem tfName_derived_witness :
    (YamlConfigAttribute.mk (str "HTTPServer") [] (str "String") false false false []).tfName = []
    ∧ (augmentAttribute
        (.mk (str "HTTPServer") [] (str "String") false false false [])).tfName
      = DeriveBoundaryWords
          (YamlConfigAttribute.mk (str "HTTPServer") [] (str "String")
            false false false []).modelName :=
  ⟨rfl, tfName_derived_by_boundary_segmentation.1 _ rfl⟩

mutual

theorem augmentAttribute_idem : ∀ a, augmentAttribute (augmentAttribute a) = augmentAttribute a
  | .mk m tf ty i rid ref attrs => by
    simp only [augmentAttribute, YamlConfigAttribute.mk.injEq, true_and, and_true]
    constructor
    · by_cases h : tf = []
      · simp only [h, if_pos rfl]
        by_cases h2 : deriveTfName m = [] <;> simp [h2]
      · simp [h]
    · by_cases hty : ty = str "List" ∨ ty = str "Set"
      · simp only [if_pos hty]
        exact augmentAttrList_idem attrs
      · simp [hty]

theorem augmentAttrList_idem : ∀ l, augmentAttrList (augmentAttrList l) = augmentAttrList l
  | [] => by simp [augmentAttrList]
  | a :: rest => by
    simp only [augmentAttrList, List.cons.injEq]
    exact ⟨augmentAttribute_idem a, augmentAttrList_idem rest⟩

end

theorem lit_append_ne_nil {x : Str} (hx : x ≠ []) (y z : Str) : x ++ y ++ z ≠ [] := by
  cases x with
  | nil => exact absurd rfl hx
  | cons c xs => simp

theorem ds_default_ne_nil (n : Str) :
    str "This data source can read the " ++ n ++ str "." ≠ [] :=
  lit_append_ne_nil (by decide) n (str ".")

theorem res_default_ne_nil (n : Str) (b : Bool) :
    (if b then str "This resource can manage an " ++ n ++ str "."
     else str "This resource can manage a " ++ n ++ str ".") ≠ [] := by
  cases b
  · rw [if_neg (by simp)]
    exact lit_append_ne_nil (by decide) n (str ".")
  · rw [if_pos (by simp)]
    exact lit_append_ne_nil (by decide) n (str ".")

/-- C4: augmentation is idempotent — augmenting an already-augmented entity
changes nothing: the derived external names of all attributes (nested ones
included) and both synthesized descriptions are stable. -/
theorem augmentConfig_idempotent (c : YamlConfig) :
    augmentConfig (augmentConfig c) = augmentConfig c := by
  simp only [augmentConfig, YamlConfig.mk.injEq, true_and]
  refine ⟨?_, ?_, augmentAttrList_idem c.attributes⟩
  · by_cases hds : c.dsDescription = []
    · simp only [hds, if_pos]
      rw [if_neg (ds_default_ne_nil c.name)]
    · simp [hds]
  · by_cases hres : c.resDescription = []
    · simp only [hres, if_pos]
      rw [if_neg (res_default_ne_nil c.name _)]
    · simp [hres]

theorem isPrefixOf_single (v ch : Char) (tail : Str) :
    ([v] : Str).isPrefixOf (ch :: tail) = (v == ch) := by
  simp [List.isPrefixOf]

theorem vowelStart_cons_true {ch : Char} (tail : Str)
    (h : 'a' = ch ∨ 'e' = ch ∨ 'i' = ch ∨ 'o' = ch ∨ 'u' = ch) :
    vowelStart (ch :: tail) = true := by
  rcases h with h | h | h | h | h <;> subst h <;>
    simp [vowelStart, isPrefixOf_single]

theorem vowelStart_cons_false {ch : Char} (tail : Str)
    (h : ¬('a' = ch ∨ 'e' = ch ∨ 'i' = ch ∨ 'o' = ch ∨ 'u' = ch)) :
    vowelStart (ch :: tail) = false := by
  push_neg at h
  obtain ⟨h1, h2, h3, h4, h5⟩ := h
  simp [vowelStart, isPrefixOf_single, h1, h2, h3, h4, h5]

/-- C6: for an entity with an empty resource description, augmentation
synthesizes `This resource can manage an <Name>.` when the first character
of the lowercased entity name is one of `a,e,i,o,u`, and
`This resource can manage a <Name>.` otherwise; `Access Policy` gets the
`an` form and `Rule` the `a` form. -/
theorem article_selection :
    (∀ c : YamlConfig, c.resDescription = [] →
      ∀ ch tail, c.name.map Char.toLower = ch :: tail →
        (augmentConfig c).resDescription =
          if 'a' = ch ∨ 'e' = ch ∨ 'i' = ch ∨ 'o' = ch ∨ 'u' = ch then
            str "This resource can manage an " ++ c.name ++ str "."
          else str "This resource can manage a " ++ c.name ++ str ".")
    ∧ (∀ c : YamlConfig, c.resDescription = [] → c.name = [] →
        (augmentConfig c).resDescription =
          str "This resource can manage a " ++ c.name ++ str ".")
    ∧ (augmentConfig accessPolicyCfg).resDescription
        = str "This resource can manage an Access Policy."
    ∧ (augmentConfig ruleCfg).resDescription
        = str "This resource can manage a Rule." := by
  refine ⟨?_, ?_, ?_, ?_⟩
  · intro c h ch tail hmap
    simp only [augmentConfig]
    rw [if_pos h, hmap]
    by_cases hv : 'a' = ch ∨ 'e' = ch ∨ 'i' = ch ∨ 'o' = ch ∨ 'u' = ch
    · simp [vowelStart_cons_true tail hv, hv]
    · simp [vowelStart_cons_false tail hv, hv]
  · intro c h hn
    simp only [augmentConfig]
    rw [if_pos h, hn]
    simp [vowelStart, List.isPrefixOf]
  · decide
  · decide

/-- Witness for C6 at the entity `Access Policy`, whose lowercased name
starts with the vowel `a`. -/
theorem article_selection_witness :
    (augmentConfig accessPolicyCfg).resDescription =
      if 'a' = 'a' ∨ 'e' = 'a' ∨ 'i' = 'a' ∨ 'o' = 'a' ∨ 'u' = 'a' then
        str "This resource can manage an " ++ accessPolicyCfg.name ++ str "."
      else str "This resource can manage a " ++ accessPolicyCfg.name ++ str "." :=
  article_selection.1 accessPolicyCfg rfl 'a' (str "ccess policy") (by decide)

theorem hasReference_iff (l : List YamlConfigAttribute) :
    HasReference l = true ↔ ∃ a ∈ l, a.reference = true := by
  induction l with
  | nil => simp [HasReference]
  | cons a rest ih =>
    cases href : a.reference <;> simp [HasReference, href, ih]

theorem hasId_iff (l : List YamlConfigAttribute) :
    HasId l = true ↔ ∃ a ∈ l, a.id = true := by
  induction l with
  | nil => simp [HasId]
  | cons a rest ih =>
    cases hid : a.id <;> simp [HasId, hid, ih]

theorem inAttrTree_nil (a : YamlConfigAttribute) : ¬ InAttrTree a [] := by
  intro h
  cases h with
  | here h2 => exact absurd h2 (List.not_mem_nil a)
  | nested hb ht => exact absurd hb (List.not_mem_nil _)

theorem inAttrTree_cons (a x : YamlConfigAttribute) (l : List YamlConfigAttribute) :
    InAttrTree a (x :: l) ↔ a = x ∨ InAttrTree a x.attributes ∨ InAttrTree a l := by
  constructor
  · intro h
    cases h with
    | here h2 =>
      rcases List.mem_cons.mp h2 with h3 | h3
      · exact Or.inl h3
      · exact Or.inr (Or.inr (InAttrTree.here h3))
    | nested hb ht =>
      rcases List.mem_cons.mp hb with h3 | h3
      · subst h3
        exact Or.inr (Or.inl ht)
      · exact Or.inr (Or.inr (InAttrTree.nested h3 ht))
  · intro h
    rcases h with h | h | h
    · exact InAttrTree.here (h ▸ List.mem_cons_self x l)
    · exact InAttrTree.nested (List.mem_cons_self x l) h
    · cases h with
      | here h2 => exact InAttrTree.here (List.mem_cons_of_mem x h2)
      | nested hb ht => exact InAttrTree.nested (List.mem_cons_of_mem x hb) ht

theorem hasResourceId_iff : ∀ l : List YamlConfigAttribute,
    HasResourceId l = true ↔ ∃ a, InAttrTree a l ∧ a.resourceId = true
  | [] => by
    simp only [HasResourceId]
    constructor
    · intro h
      exact absurd h (by simp)
    · rintro ⟨a, ht, _⟩
      exact absurd ht (inAttrTree_nil a)
  | (.mk m tf ty i rid ref attrs) :: rest => by
    have ihAttrs := hasResourceId_iff attrs
    have ihRest := hasResourceId_iff rest
    constructor
    · intro h
      simp only [HasResourceId] at h
      by_cases hrid : rid = true
      · subst hrid
        exact ⟨.mk m tf ty i true ref attrs, InAttrTree.here (List.mem_cons_self _ _), rfl⟩
      · have hridf : rid = false := by
          cases rid
          · rfl
          · exact absurd rfl hrid
        rw [hridf] at h
        simp only [if_false, Bool.false_eq_true] at h
        by_cases hnest : (attrs.length > 0 && HasResourceId attrs) = true
        · obtain ⟨a, ht, ha⟩ := ihAttrs.mp (Bool.and_elim_right hnest)
          refine ⟨a, ?_, ha⟩
          refine (inAttrTree_cons a _ rest).mpr (Or.inr (Or.inl ?_))
          simpa [YamlConfigAttribute.attributes] using ht
        · rw [if_neg (by simpa using hnest)] at h
          obtain ⟨a, ht, ha⟩ := ihRest.mp h
          exact ⟨a, (inAttrTree_cons a _ rest).mpr (Or.inr (Or.inr ht)), ha⟩
    · rintro ⟨a, ht, ha⟩
      rcases (inAttrTree_cons a _ rest).mp ht with h | h | h
      · subst h
        simp only [YamlConfigAttribute.resourceId] at ha
        simp [HasResourceId, ha]
      · simp only [YamlConfigAttribute.attributes] at h
        have hattrs : HasResourceId attrs = true := ihAttrs.mpr ⟨a, h, ha⟩
        have hlen : attrs.length > 0 := by
          cases attrs with
          | nil => exact absurd h (inAttrTree_nil a)
          | cons x xs => simp
        cases rid <;> simp [HasResourceId, hattrs, hlen]
      · have hrest : HasResourceId rest = true := ihRest.mpr ⟨a, h, ha⟩
        cases rid <;>
          cases hnest : (attrs.length > 0 && HasResourceId attrs) <;>
            simp [HasResourceId, hrest, hnest]

/-- C7: `HasReference` is a shallow scan — true exactly when a top-level
attribute has the is-a-reference flag (a flag on a nested attribute alone
gives false) — while `HasResourceId` recurses through non-empty nested
attribute sequences and is true exactly when some attribute anywhere in the
tree has the resource-identifier flag. -/
theorem reference_shallow_resourceId_deep :
    (∀ l : List YamlConfigAttribute, HasReference l = true ↔ ∃ a ∈ l, a.reference = true)
    ∧ (∀ l : List YamlConfigAttribute,
        HasResourceId l = true ↔ ∃ a, InAttrTree a l ∧ a.resourceId = true)
    ∧ HasReference [nestedRefAttr] = false
    ∧ HasResourceId [nestedIdAttr] = true := by
  refine ⟨hasReference_iff, hasResourceId_iff, by decide, ?_⟩
  simp [HasResourceId, nestedIdAttr]

/-- C10: `HasId` is strictly shallow — true exactly when a top-level
attribute has the identifier flag; an identifier flag set only on a nested
attribute (as in `nestedIdAttr`) yields false. -/
theorem hasId_shallow :
    (∀ l : List YamlConfigAttribute, HasId l = true ↔ ∃ a ∈ l, a.id = true)
    ∧ HasId [nestedIdAttr] = false :=
  ⟨hasId_iff, by decide⟩

theorem mergeLines_eq_renderItems (R : List Str) :
    ∀ (E : List Str) (cur : Str), mergeLines R E cur = renderItems R (mergeItems E cur) := by
  intro E
  induction E with
  | nil => intro cur; rfl
  | cons line rest ih =>
    intro cur
    by_cases hc : cur = []
    · subst hc
      simp only [mergeLines, mergeItems, if_pos]
      cases hb : markerCapture beginMarker line with
      | none => simp [renderItems, ih]
      | some n =>
        by_cases hn : n = []
        · simp [hn, renderItems, ih]
        · simp [hn, ih]
    · simp only [mergeLines, mergeItems, if_neg hc]
      cases he : markerCapture endMarker line with
      | none => simp [ih]
      | some n =>
        by_cases hn : n = cur
        · simp [hn, renderItems, ih]
        · simp [hn, ih]

theorem insert_mem_mergeItems :
    ∀ (E : List Str) (cur name : Str),
      MergeItem.insert name ∈ mergeItems E cur →
      ∃ l ∈ E, markerCapture endMarker l = some name := by
  intro E
  induction E with
  | nil => intro cur name h; simp [mergeItems] at h
  | cons line rest ih =>
    intro cur name h
    by_cases hc : cur = []
    · subst hc
      cases hb : markerCapture beginMarker line with
      | none =>
        simp only [mergeItems, if_pos, hb, List.mem_cons] at h
        rcases h with h | h
        · exact absurd h (by simp)
        · obtain ⟨l, hl, he⟩ := ih [] name h
          exact ⟨l, List.mem_cons_of_mem _ hl, he⟩
      | some n =>
        by_cases hn : n = []
        · simp only [mergeItems, if_pos, hb, hn, List.mem_cons] at h
          rcases h with h | h
          · exact absurd h (by simp)
          · obtain ⟨l, hl, he⟩ := ih [] name h
            exact ⟨l, List.mem_cons_of_mem _ hl, he⟩
        · simp only [mergeItems, if_pos, hb, if_neg hn] at h
          obtain ⟨l, hl, he⟩ := ih n name h
          exact ⟨l, List.mem_cons_of_mem _ hl, he⟩
    · cases he : markerCapture endMarker line with
      | none =>
        simp only [mergeItems, if_neg hc, he] at h
        obtain ⟨l, hl, he2⟩ := ih cur name h
        exact ⟨l, List.mem_cons_of_mem _ hl, he2⟩
      | some n =>
        by_cases hn : n = cur
        · simp only [mergeItems, if_neg hc, he, if_pos hn, List.mem_cons] at h
          rcases h with h | h
          · refine ⟨line, List.mem_cons_self _ _, ?_⟩
            rw [he, hn]
            injection h with h2
            rw [h2]
          · obtain ⟨l, hl, he2⟩ := ih [] name h
            exact ⟨l, List.mem_cons_of_mem _ hl, he2⟩
        · simp only [mergeItems, if_neg hc, he, if_neg hn] at h
          obtain ⟨l, hl, he2⟩ := ih cur name h
          exact ⟨l, List.mem_cons_of_mem _ hl, he2⟩

/-- C5: a section whose name has no matching end-marker line in the prior
file is never inserted; the merged output is exactly the kept prior lines
with a section block extracted from `R` appended at each matching
end-marker event; and when a matching end-marker for the open section is
reached, the block extracted from `R` is appended at that point. -/
theorem section_insertion_requires_end_marker :
    (∀ (E : List Str) (cur name : Str),
      (∀ l ∈ E, markerCapture endMarker l ≠ some name) →
      MergeItem.insert name ∉ mergeItems E cur)
    ∧ (∀ (R E : List Str) (cur : Str),
        mergeLines R E cur = renderItems R (mergeItems E cur))
    ∧ (∀ (R : List Str) (line : Str) (rest : List Str) (cur : Str),
        cur ≠ [] → markerCapture endMarker line = some cur →
        mergeLines R (line :: rest) cur
          = getTemplateSection R cur ++ mergeLines R rest []) := by
  refine ⟨?_, fun R E cur => mergeLines_eq_renderItems R E cur, ?_⟩
  · intro E cur name hno hmem
    obtain ⟨l, hl, he⟩ := insert_mem_mergeItems E cur name hmem
    exact hno l hl he
  · intro R line rest cur hcur he
    simp [mergeLines, if_neg hcur, he]

/-- Witness for C5: no `bar` section is inserted while merging a prior file
whose only end-marker closes `foo`; the instrumented and direct merge
outputs agree; reaching `//template:end foo` in state `foo` appends the
`foo` block from the rendered text. -/
theorem section_insertion_witness :
    ((∀ l ∈ wellFormedPrior, markerCapture endMarker l ≠ some (str "bar"))
      ∧ MergeItem.insert (str "bar") ∉ mergeItems wellFormedPrior [])
    ∧ mergeLines renderedWithFoo wellFormedPrior []
        = renderItems renderedWithFoo (mergeItems wellFormedPrior [])
    ∧ mergeLines renderedWithFoo (str "//template:end foo" :: [str "tail"]) (str "foo")
        = getTemplateSection renderedWithFoo (str "foo")
          ++ mergeLines renderedWithFoo [str "tail"] [] :=
  ⟨⟨by decide, section_insertion_requires_end_marker.1 wellFormedPrior [] (str "bar") (by decide)⟩,
   section_insertion_requires_end_marker.2.1 renderedWithFoo wellFormedPrior [],
   section_insertion_requires_end_marker.2.2 renderedWithFoo (str "//template:end foo")
     [str "tail"] (str "foo") (by decide) (by decide)⟩

theorem filterMap_keep_sublist (R : List Str) :
    ∀ items : List MergeItem,
      (items.filterMap fun it =>
        match it with
        | MergeItem.keep l => some l
        | MergeItem.insert _ => none).Sublist (renderItems R items)
  | [] => by simp [renderItems]
  | MergeItem.keep l :: rest => by
    simp only [List.filterMap_cons, renderItems]
    exact List.Sublist.cons₂ l (filterMap_keep_sublist R rest)
  | MergeItem.insert n :: rest => by
    simp only [List.filterMap_cons, renderItems]
    exact (filterMap_keep_sublist R rest).trans (List.sublist_append_right _ _)

/-- C3: when every opened section of the prior file is eventually closed
(the merge scan finishes in the `Outside` state), every prior-file line
lying outside all marked sections appears verbatim and in its original
order in the merged output. -/
theorem outside_lines_preserved (R E : List Str) :
    finalState E [] = [] → (outsideLines E []).Sublist (mergeLines R E []) := by
  intro _
  rw [mergeLines_eq_renderItems]
  exact filterMap_keep_sublist R (mergeItems E [])

/-- Witness for C3 at a well-formed prior file containing hand edits around
a complete `foo` section. -/
theorem outside_lines_preserved_witness :
    finalState wellFormedPrior [] = []
    ∧ (outsideLines wellFormedPrior []).Sublist
        (mergeLines renderedWithFoo wellFormedPrior []) :=
  ⟨by decide, outside_lines_preserved renderedWithFoo wellFormedPrior (by decide)⟩

/-- Counterexample to C1: a prior file with an unterminated `foo` section is
merged without any error, and the merge result differs from the prior file —
the destination is overwritten with content that drops the begin-marker line
and everything after it, not left byte-for-byte unmodified. -/
theorem merge_unterminated_counterexample :
    markerCapture beginMarker (str "//template:begin foo") = some (str "foo")
    ∧ (∀ l ∈ unterminatedPrior, markerCapture endMarker l ≠ some (str "foo"))
    ∧ mergeLines renderedWithFoo unterminatedPrior [] ≠ unterminatedPrior
    ∧ mergeLines renderedWithFoo unterminatedPrior [] = [str "hello world"] := by
  decide

theorem mergeLines_insection_drops (R : List Str) :
    ∀ (post : List Str) (n : Str), n ≠ [] →
      (∀ l ∈ post, markerCapture endMarker l ≠ some n) →
      mergeLines R post n = [] := by
  intro post
  induction post with
  | nil => intro n _ _; rfl
  | cons l rest ih =>
    intro n hn hno
    cases he : markerCapture endMarker l with
    | none =>
      simp only [mergeLines, if_neg hn, he]
      exact ih n hn fun x hx => hno x (List.mem_cons_of_mem _ hx)
    | some m =>
      have hm : m ≠ n := by
        intro hmn
        exact hno l (List.mem_cons_self _ _) (by rw [he, hmn])
      simp only [mergeLines, if_neg hn, he, if_neg hm]
      exact ih n hn fun x hx => hno x (List.mem_cons_of_mem _ hx)

/-- C1 amended: when the prior file consists of lines that open no section,
then a begin-marker with non-empty name `n`, then lines none of which is a
matching end-marker for `n`, the merge does not fail; the scan completes and
the destination is overwritten with exactly the lines before the unmatched
begin-marker — the begin-marker line and every line after it are discarded,
so the destination is modified rather than left untouched. -/
theorem merge_unterminated_amended (R pre post : List Str) (b n : Str) :
    (∀ l ∈ pre, markerCapture beginMarker l = none ∨ markerCapture beginMarker l = some []) →
    markerCapture beginMarker b = some n → n ≠ [] →
    (∀ l ∈ post, markerCapture endMarker l ≠ some n) →
    mergeLines R (pre ++ b :: post) [] = pre := by
  induction pre with
  | nil =>
    intro _ hb hn hno
    simp only [List.nil_append, mergeLines, if_pos, hb, if_neg hn]
    exact mergeLines_insection_drops R post n hn hno
  | cons l pre2 ih =>
    intro hpre hb hn hno
    have hl := hpre l (List.mem_cons_self _ _)
    have hrest : ∀ x ∈ pre2, markerCapture beginMarker x = none
        ∨ markerCapture beginMarker x = some [] :=
      fun x hx => hpre x (List.mem_cons_of_mem _ hx)
    rcases hl with hl | hl
    · simp only [List.cons_append, mergeLines, if_pos, hl]
      exact congrArg (l :: ·) (ih hrest hb hn hno)
    · simp only [List.cons_append, mergeLines, if_pos, hl, reduceIte]
      exact congrArg (l :: ·) (ih hrest hb hn hno)

/-- Witness for the amended C1 at the concrete unterminated prior file. -/
theorem merge_unterminated_amended_witness :
    mergeLines renderedWithFoo
      ([str "hello world"] ++ str "//template:begin foo" :: [str "inside the section"]) []
      = [str "hello world"] :=
  merge_unterminated_amended renderedWithFoo [str "hello world"] [str "inside the section"]
    (str "//template:begin foo") (str "foo") (by decide) (by decide) (by decide) (by decide)

theorem loadConfigs_isError :
    ∀ docs : List (Except Str YamlConfig),
      (∃ e, Except.error e ∈ docs) → ∃ e2, loadConfigs docs = Except.error e2 := by
  intro docs
  induction docs with
  | nil => rintro ⟨e, he⟩; exact absurd he (List.not_mem_nil _)
  | cons d rest ih =>
    rintro ⟨e, he⟩
    cases d with
    | error e0 => exact ⟨e0, rfl⟩
    | ok c =>
      have hrest : ∃ e, Except.error e ∈ rest := by
        rcases List.mem_cons.mp he with h | h
        · exact absurd h (by simp)
        · exact ⟨e, h⟩
      obtain ⟨e2, h2⟩ := ih hrest
      refine ⟨e2, ?_⟩
      simp [loadConfigs, h2, Except.map]

/-- C8: if any schema document fails to parse, the whole run aborts during
the loading phase, which completes before any augmentation, rendering or
file write: `mainRun` returns the parse error and produces no write at
all. -/
theorem parse_error_before_generation :
    ∀ (render : Str → YamlConfig → Str) (renderNames : List Str → Str)
      (renderText : Str → Str) (docs : List (Except Str YamlConfig)) (changelog : Str),
      (∃ e, Except.error e ∈ docs) →
      (∃ e2, mainRun render renderNames renderText docs changelog = Except.error e2)
      ∧ ∀ ws, mainRun render renderNames renderText docs changelog ≠ Except.ok ws := by
  intro render renderNames renderText docs changelog hx
  obtain ⟨e2, h2⟩ := loadConfigs_isError docs hx
  constructor
  · exact ⟨e2, by simp [mainRun, h2]⟩
  · intro ws hws
    simp [mainRun, h2] at hws

/-- Witness for C8 at a single malformed schema document. -/
theorem parse_error_before_generation_witness :
    (∃ e2, mainRun (fun _ _ => []) (fun _ => []) (fun _ => [])
        [Except.error (str "bad yaml")] [] = Except.error e2)
    ∧ ∀ ws, mainRun (fun _ _ => []) (fun _ => []) (fun _ => [])
        [Except.error (str "bad yaml")] [] ≠ Except.ok ws :=
  parse_error_before_generation (fun _ _ => []) (fun _ => []) (fun _ => [])
    [Except.error (str "bad yaml")] [] ⟨str "bad yaml", by simp⟩

/-- C9: for a template file whose path ends in `.go`, the first line of the
file is discarded before the template is parsed — the parsed text does not
depend on it and equals the remaining lines — while for any other path the
whole file is parsed. -/
theorem go_template_first_line_dropped :
    (∀ (p l1 l2 : Str) (rest : List Str), (str ".go").isSuffixOf p = true →
        templateText p (l1 :: rest) = joinNL rest
        ∧ templateText p (l1 :: rest) = templateText p (l2 :: rest))
    ∧ (∀ (p : Str) (lines : List Str), (str ".go").isSuffixOf p = false →
        templateText p lines = joinNL lines) := by
  constructor
  · intro p l1 l2 rest h
    constructor <;> simp [templateText, h]
  · intro p lines h
    simp [templateText, h]

/-- Witness for C9 at the model template path (a `.go` path) and the
resource example path (a non-`.go` path). -/
theorem go_template_first_line_dropped_witness :
    (templateText (str "./gen/templates/model.go")
        (str "//go:build ignore" :: [str "package main"]) = joinNL [str "package main"]
      ∧ templateText (str "./gen/templates/model.go")
          (str "//go:build ignore" :: [str "package main"])
        = templateText (str "./gen/templates/model.go")
            (str "different first line" :: [str "package main"]))
    ∧ templateText (str "./gen/templates/resource.tf") [str "resource body"]
        = joinNL [str "resource body"] :=
  ⟨go_template_first_line_dropped.1 (str "./gen/templates/model.go")
      (str "//go:build ignore") (str "different first line") [str "package main"] (by decide),
   go_template_first_line_dropped.2 (str "./gen/templates/resource.tf")
      [str "resource body"] (by decide)⟩
